import Mathlib

/-!
Verification of the match-result store and retrieval engine of a
command-line argument processor (file `src/args/arg_matches.rs`).

Modelling conventions:
* A raw value (Rust `OsString`) is a byte sequence, modelled as `List Nat`.
* Decoded text is modelled as its sequence of Unicode code points,
  `List Nat`, so that strict and lossy decoding can be compared
  code-point by code-point.
* The sparse slot map backing one argument's values (the `vec_map`
  backing vector) is a `List (Option α)`: entry `i` is `some v` when
  occurrence index `i` is occupied.
* The double-ended iterator `Iter` of `arg_matches.rs` is modelled as a
  state record `(front, back, iter)` with explicit step functions; the
  Rust `while` loops become well-founded recursion on `back - front`.
* Rust panics (the fatal invalid-UTF-8 path) are modelled with
  `Except String`.
-/

set_option autoImplicit false

namespace ArgMatchesModel

/-- A raw value: an opaque sequence of bytes. -/
abbrev Bytes := List Nat

/-- Decoded text, as a sequence of Unicode code points. -/
abbrev Text := List Nat

/-!
The double-ended iterator over a sparse slot vector, taken from the
`Iter` struct of `arg_matches.rs` (itself adapted from `vec_map`):
fields `front`, `back` and the remaining slice `iter`.
-/

/-- State of the double-ended iterator `Iter` over a sparse slot
vector: `front` and `back` are the cursor pair, `iter` the remaining
slice of the backing vector (Rust `slice::Iter`, which is consumed
from both ends). -/
structure Iter (V : Type) where
  front : Nat
  back : Nat
  iter : List (Option V)
  deriving Repr, DecidableEq

namespace Iter

variable {V : Type}

/-- The loop body of `Iter::next`: while `front < back`, pull the next
slot from the front of the remaining slice; an occupied slot is
returned (incrementing `front`), an empty slot just advances `front`.
Returns the yielded value together with the updated `front` cursor and
remaining slice. When the slice is exhausted while `front < back`
(unreachable from a well-formed state), the Rust loop spins
incrementing `front` until the cursors meet and then returns absent;
that net result `(none, back, [])` is returned directly, keeping the
recursion structural on the slice. -/
def nextAux : Nat → Nat → List (Option V) → Option V × Nat × List (Option V)
  | front, back, l =>
    if front < back then
      match l with
      | some x :: rest => (some x, front + 1, rest)
      | none :: rest => nextAux (front + 1) back rest
      | [] => (none, back, [])
    else (none, front, l)

/-- The loop body of `Iter::next_back`: while `front < back`, pull the
next slot from the back of the remaining slice; an occupied slot is
returned (decrementing `back`), an empty or missing slot just lowers
`back`. -/
def nextBackAux : Nat → Nat → List (Option V) → Option V × Nat × List (Option V)
  | front, back, l =>
    if front < back then
      match l.getLast? with
      | some (some x) => (some x, back - 1, l.dropLast)
      | some none => nextBackAux front (back - 1) l.dropLast
      | none => nextBackAux front (back - 1) []
    else (none, back, l)
  termination_by front back _ => back - front
  decreasing_by all_goals (simp_wf; omega)

/-- `Iter::next` of `arg_matches.rs`. -/
def next (s : Iter V) : Option V × Iter V :=
  match nextAux s.front s.back s.iter with
  | (r, f, l) => (r, ⟨f, s.back, l⟩)

/-- `Iter::next_back` of `arg_matches.rs`. -/
def nextBack (s : Iter V) : Option V × Iter V :=
  match nextBackAux s.front s.back s.iter with
  | (r, b, l) => (r, ⟨s.front, b, l⟩)

/-- Modelled from the spec: the `values()` constructor of the slot
map (in the external `vec_map` crate, not under `src/`) creates the
iterator with `front = 0` and `back` equal to the length of the
backing vector, over the whole backing slice. -/
def init (l : List (Option V)) : Iter V := ⟨0, l.length, l⟩

/-- Well-formedness: the distance between the cursors equals the
length of the remaining slice (true of `init` and preserved by both
step functions). -/
def WF (s : Iter V) : Prop := s.back - s.front = s.iter.length ∧ s.front ≤ s.back

theorem init_wf (l : List (Option V)) : WF (init l) := by
  constructor <;> simp [init]

/-- The remaining occupied values of an iterator state, in ascending
index order. -/
def remaining (s : Iter V) : List V := s.iter.filterMap id

theorem nextAux_spec (l : List (Option V)) :
    ∀ front back, back - front = l.length → front ≤ back →
    match l.filterMap id with
    | [] => nextAux front back l = (none, back, ([] : List (Option V)))
    | x :: rest =>
        ∃ f l', nextAux front back l = (some x, f, l') ∧
          back - f = l'.length ∧ f ≤ back ∧ l'.filterMap id = rest := by
  induction l with
  | nil =>
      intro front back hlen hle
      simp only [List.length_nil] at hlen
      have hfb : front = back := by omega
      subst hfb
      simp [nextAux]
  | cons hd tl ih =>
      intro front back hlen hle
      have hfb : front < back := by
        simp only [List.length_cons] at hlen; omega
      cases hd with
      | some x =>
          have hfm : (some x :: tl).filterMap id = x :: tl.filterMap id := rfl
          rw [hfm]
          refine ⟨front + 1, tl, ?_, ?_, ?_, rfl⟩
          · rw [nextAux]; simp [hfb]
          · simp only [List.length_cons] at hlen; omega
          · omega
      | none =>
          have hfm : ((none : Option V) :: tl).filterMap id = tl.filterMap id := rfl
          rw [hfm]
          have hlen' : back - (front + 1) = tl.length := by
            simp only [List.length_cons] at hlen; omega
          have hle' : front + 1 ≤ back := by omega
          have := ih (front + 1) back hlen' hle'
          rw [nextAux]
          simp only [hfb, if_true]
          exact this

theorem nextBackAux_spec (l : List (Option V)) :
    ∀ front back, back - front = l.length → front ≤ back →
    match (l.filterMap id).getLast? with
    | none => nextBackAux front back l = (none, front, ([] : List (Option V)))
    | some x =>
        ∃ b l', nextBackAux front back l = (some x, b, l') ∧
          b - front = l'.length ∧ front ≤ b ∧
          l'.filterMap id = (l.filterMap id).dropLast := by
  induction l using List.reverseRecOn with
  | nil =>
      intro front back hlen _
      simp only [List.length_nil] at hlen
      have hfb : ¬ front < back := by omega
      simp only [List.filterMap_nil, List.getLast?_nil]
      rw [nextBackAux]
      simp [hfb]
      omega
  | append_singleton tl hd ih =>
      intro front back hlen hle
      have hfb : front < back := by
        simp only [List.length_append, List.length_singleton] at hlen; omega
      have hlast : (tl ++ [hd]).getLast? = some hd := by
        simp [List.getLast?_append]
      have hdrop : (tl ++ [hd]).dropLast = tl := by
        simp
      cases hd with
      | some x =>
          have hfm : (tl ++ [some x]).filterMap id = tl.filterMap id ++ [x] := by
            simp [List.filterMap_append]
          rw [hfm]
          simp only [List.getLast?_append, List.getLast?_singleton]
          refine ⟨back - 1, tl, ?_, ?_, ?_, ?_⟩
          · rw [nextBackAux]; simp [hfb, hlast, hdrop]
          · simp only [List.length_append, List.length_singleton] at hlen; omega
          · omega
          · simp
      | none =>
          have hfm : (tl ++ [(none : Option V)]).filterMap id = tl.filterMap id := by
            simp [List.filterMap_append]
          rw [hfm]
          have hlen' : (back - 1) - front = tl.length := by
            simp only [List.length_append, List.length_singleton] at hlen; omega
          have hle' : front ≤ back - 1 := by
            simp only [List.length_append, List.length_singleton] at hlen; omega
          have := ih front (back - 1) hlen' hle'
          rw [nextBackAux]
          simp only [hfb, if_true, hlast, hdrop]
          exact this

/-- One forward step of a well-formed iterator yields the head of the
remaining occupied values and leaves the tail, preserving
well-formedness and the `back` cursor. -/
theorem next_spec (s : Iter V) (h : WF s) :
    ∃ s', s.next = (s.remaining.head?, s') ∧ WF s' ∧ s'.back = s.back ∧
      s'.remaining = s.remaining.tail := by
  obtain ⟨hlen, hle⟩ := h
  have hs := nextAux_spec s.iter s.front s.back hlen hle
  unfold remaining
  cases hfm : s.iter.filterMap id with
  | nil =>
      rw [hfm] at hs
      refine ⟨⟨s.back, s.back, []⟩, ?_, ?_, rfl, ?_⟩
      · simp [next, hs]
      · constructor <;> simp
      · simp [remaining]
  | cons x rest =>
      rw [hfm] at hs
      obtain ⟨f, l', hrun, hlen', hle', hfm'⟩ := hs
      refine ⟨⟨f, s.back, l'⟩, ?_, ⟨hlen', hle'⟩, rfl, ?_⟩
      · simp [next, hrun]
      · simp [remaining, hfm']

/-- One backward step of a well-formed iterator yields the last of the
remaining occupied values and leaves the rest, preserving
well-formedness and the `front` cursor. -/
theorem nextBack_spec (s : Iter V) (h : WF s) :
    ∃ s', s.nextBack = (s.remaining.getLast?, s') ∧ WF s' ∧ s'.front = s.front ∧
      s'.remaining = s.remaining.dropLast := by
  obtain ⟨hlen, hle⟩ := h
  have hs := nextBackAux_spec s.iter s.front s.back hlen hle
  unfold remaining
  cases hfm : (s.iter.filterMap id).getLast? with
  | none =>
      rw [hfm] at hs
      have hnil : s.iter.filterMap id = [] := List.getLast?_eq_none_iff.mp hfm
      refine ⟨⟨s.front, s.front, []⟩, ?_, ?_, rfl, ?_⟩
      · simp [nextBack, hs]
      · constructor <;> simp
      · simp [remaining, hnil]
  | some x =>
      rw [hfm] at hs
      obtain ⟨b, l', hrun, hlen', hle', hfm'⟩ := hs
      refine ⟨⟨s.front, b, l'⟩, ?_, ⟨hlen', hle'⟩, rfl, ?_⟩
      · simp [nextBack, hrun]
      · simp [remaining, hfm']

/-- Once the cursors meet, both directions return absent and the state
is unchanged: the sequence is exhausted. -/
theorem exhausted_of_cursors_met (s : Iter V) (h : s.front = s.back) :
    s.next = (none, s) ∧ s.nextBack = (none, s) := by
  obtain ⟨f, b, l⟩ := s
  simp only at h
  subst h
  have h1 : nextAux f f l = ((none : Option V), f, l) := by
    rw [nextAux.eq_def]; simp
  have h2 : nextBackAux f f l = ((none : Option V), f, l) := by
    rw [nextBackAux.eq_def]; simp
  constructor <;> simp [next, nextBack, h1, h2]

/-- Remaining values of an exhausted well-formed iterator are gone. -/
theorem remaining_nil_of_cursors_met (s : Iter V) (h : WF s)
    (hfb : s.front = s.back) : s.remaining = [] := by
  obtain ⟨hlen, _⟩ := h
  have : s.iter.length = 0 := by omega
  have : s.iter = [] := List.length_eq_zero.mp this
  simp [remaining, this]

/-- Fuelled full forward collection (`Iterator::collect` on the Rust
side): pull with `next` until it returns absent. -/
def collectFAux : Nat → Iter V → List V
  | 0, _ => []
  | fuel + 1, s =>
    match s.next with
    | (some x, s1) => x :: collectFAux fuel s1
    | (none, _) => []

/-- Full forward collection of the iterator; the length of the backing
slice bounds the number of yielded values, so it is enough fuel. -/
def collectForward (s : Iter V) : List V := collectFAux s.iter.length s

/-- Fuelled full backward collection: pull with `next_back` until it
returns absent (a `.rev()` collect on the Rust side). -/
def collectBAux : Nat → Iter V → List V
  | 0, _ => []
  | fuel + 1, s =>
    match s.nextBack with
    | (some x, s1) => x :: collectBAux fuel s1
    | (none, _) => []

/-- Full backward collection of the iterator. -/
def collectBackward (s : Iter V) : List V := collectBAux s.iter.length s

theorem collectFAux_spec :
    ∀ (fuel : Nat) (s : Iter V), WF s → s.remaining.length ≤ fuel →
      collectFAux fuel s = s.remaining := by
  intro fuel
  induction fuel with
  | zero =>
      intro s _ hfuel
      have : s.remaining = [] := List.eq_nil_of_length_eq_zero (by omega)
      simp [collectFAux, this]
  | succ n ih =>
      intro s hwf hfuel
      obtain ⟨s', hstep, hwf', _, hrem'⟩ := next_spec s hwf
      cases hrm : s.remaining with
      | nil =>
          rw [hrm] at hstep
          simp only [List.head?_nil] at hstep
          simp [collectFAux, hstep]
      | cons x rest =>
          rw [hrm] at hstep hrem'
          simp only [List.head?_cons, List.tail_cons] at hstep hrem'
          have hlen : rest.length ≤ n := by
            rw [hrm] at hfuel; simp at hfuel; omega
          simp only [collectFAux, hstep]
          rw [ih s' hwf' (by rw [hrem']; exact hlen), hrem']

theorem collectBAux_spec :
    ∀ (fuel : Nat) (s : Iter V), WF s → s.remaining.length ≤ fuel →
      collectBAux fuel s = s.remaining.reverse := by
  intro fuel
  induction fuel with
  | zero =>
      intro s _ hfuel
      have : s.remaining = [] := List.eq_nil_of_length_eq_zero (by omega)
      simp [collectBAux, this]
  | succ n ih =>
      intro s hwf hfuel
      obtain ⟨s', hstep, hwf', _, hrem'⟩ := nextBack_spec s hwf
      cases hrm : s.remaining.getLast? with
      | none =>
          have hnil : s.remaining = [] := List.getLast?_eq_none_iff.mp hrm
          rw [hrm] at hstep
          simp [collectBAux, hstep, hnil]
      | some x =>
          obtain ⟨ys, hys⟩ : ∃ ys, s.remaining = ys ++ [x] := by
            rcases List.eq_nil_or_concat s.remaining with hnil | ⟨ys, b, hconc⟩
            · rw [hnil] at hrm; simp at hrm
            · rw [hconc] at hrm
              simp [List.getLast?_append] at hrm
              exact ⟨ys, by rw [hconc, hrm, List.concat_eq_append]⟩
          rw [hrm] at hstep
          rw [hys] at hrem'
          simp only [List.dropLast_concat] at hrem'
          have hlen : ys.length ≤ n := by
            rw [hys] at hfuel; simp at hfuel; omega
          simp only [collectBAux, hstep]
          rw [ih s' hwf' (by rw [hrem']; exact hlen), hrem', hys]
          simp

theorem remaining_init (l : List (Option V)) : (init l).remaining = l.filterMap id := rfl

theorem length_remaining_le (s : Iter V) : s.remaining.length ≤ s.iter.length := by
  simpa [remaining] using List.length_filterMap_le id s.iter

/-- Collecting a fresh iterator forward yields the occupied values in
ascending index order. -/
theorem collectForward_init (l : List (Option V)) :
    collectForward (init l) = l.filterMap id := by
  have h := collectFAux_spec (init l).iter.length (init l) (init_wf l)
    (length_remaining_le (init l))
  rw [collectForward, h, remaining_init]

/-- Collecting a fresh iterator backward yields the occupied values in
descending index order. -/
theorem collectBackward_init (l : List (Option V)) :
    collectBackward (init l) = (l.filterMap id).reverse := by
  have h := collectBAux_spec (init l).iter.length (init l) (init_wf l)
    (length_remaining_le (init l))
  rw [collectBackward, h, remaining_init]

/-- An interleaving of forward and backward calls, given as a list of
direction flags (`true` = `next`, `false` = `next_back`). Returns the
values yielded by the forward calls in call order, the values yielded
by the backward calls in call order, and the final state. -/
def run : Iter V → List Bool → List V × List V × Iter V
  | s, [] => ([], [], s)
  | s, d :: ds =>
    if d then
      match s.next with
      | (r, s1) =>
        match run s1 ds with
        | (fs, bs, s2) => (r.toList ++ fs, bs, s2)
    else
      match s.nextBack with
      | (r, s1) =>
        match run s1 ds with
        | (fs, bs, s2) => (fs, r.toList ++ bs, s2)

theorem head?_toList_append_tail (l : List V) : l.head?.toList ++ l.tail = l := by
  cases l <;> simp

theorem dropLast_append_getLast?_toList (l : List V) :
    l.dropLast ++ l.getLast?.toList = l := by
  induction l using List.reverseRecOn with
  | nil => simp
  | append_singleton ys x _ => simp [List.getLast?_append]

/-- Invariant of any interleaved run from a well-formed state: the
forward yields, then what remains, then the backward yields reversed,
reassemble the occupied values the run started from; well-formedness
is preserved. -/
theorem run_spec (ds : List Bool) :
    ∀ (s : Iter V), WF s →
      match run s ds with
      | (fs, bs, s2) => WF s2 ∧ fs ++ s2.remaining ++ bs.reverse = s.remaining := by
  induction ds with
  | nil =>
      intro s hwf
      simp [run, hwf]
  | cons d ds ih =>
      intro s hwf
      cases d
      · obtain ⟨s1, hstep, hwf1, _, hrem1⟩ := nextBack_spec s hwf
        have hih := ih s1 hwf1
        simp only [run, Bool.false_eq_true, if_false, hstep]
        cases hrun : run s1 ds with
        | mk fs rest =>
          cases rest with
          | mk bs s2 =>
            rw [hrun] at hih
            obtain ⟨hwf2, hacc⟩ := hih
            refine ⟨hwf2, ?_⟩
            rw [List.reverse_append]
            have : s.remaining.getLast?.toList.reverse = s.remaining.getLast?.toList := by
              cases s.remaining.getLast? <;> simp
            rw [this]
            rw [hrem1] at hacc
            calc fs ++ s2.remaining ++ (bs.reverse ++ s.remaining.getLast?.toList)
                = (fs ++ s2.remaining ++ bs.reverse) ++ s.remaining.getLast?.toList := by
                  simp [List.append_assoc]
              _ = s.remaining.dropLast ++ s.remaining.getLast?.toList := by rw [hacc]
              _ = s.remaining := dropLast_append_getLast?_toList _
      · obtain ⟨s1, hstep, hwf1, _, hrem1⟩ := next_spec s hwf
        have hih := ih s1 hwf1
        simp only [run, if_true, hstep]
        cases hrun : run s1 ds with
        | mk fs rest =>
          cases rest with
          | mk bs s2 =>
            rw [hrun] at hih
            obtain ⟨hwf2, hacc⟩ := hih
            refine ⟨hwf2, ?_⟩
            rw [hrem1] at hacc
            calc s.remaining.head?.toList ++ fs ++ s2.remaining ++ bs.reverse
                = s.remaining.head?.toList ++ (fs ++ s2.remaining ++ bs.reverse) := by
                  simp [List.append_assoc]
              _ = s.remaining.head?.toList ++ s.remaining.tail := by rw [hacc]
              _ = s.remaining := head?_toList_append_tail _

end Iter

/-!
Text decoding. The strict and lossy accessors of `arg_matches.rs` call
the standard library's `OsStr::to_str` (UTF-8 validation) and
`OsStr::to_string_lossy` (replacement-character substitution), which
are outside `src/`; they are modelled here from the spec.
-/

/-- A UTF-8 continuation byte. -/
def isCont (b : Nat) : Bool := decide (0x80 ≤ b) && decide (b ≤ 0xBF)

/-- Modelled from the spec: one step of UTF-8 decoding (the validation
underlying `OsStr::to_str`, standard library code not under `src/`).
Decodes one scalar value from the front of the byte list, returning
the code point and the unconsumed bytes, or `none` if the bytes do not
start with a well-formed UTF-8 sequence. -/
def utf8DecodeOne : List Nat → Option (Nat × List Nat)
  | [] => none
  | b0 :: rest =>
    if b0 ≤ 0x7F then some (b0, rest)
    else if decide (0xC2 ≤ b0) && decide (b0 ≤ 0xDF) then
      match rest with
      | b1 :: r1 =>
          if isCont b1 then some ((b0 - 0xC0) * 0x40 + (b1 - 0x80), r1) else none
      | [] => none
    else if decide (0xE0 ≤ b0) && decide (b0 ≤ 0xEF) then
      match rest with
      | b1 :: b2 :: r2 =>
          let okB1 :=
            if b0 = 0xE0 then decide (0xA0 ≤ b1) && decide (b1 ≤ 0xBF)
            else if b0 = 0xED then decide (0x80 ≤ b1) && decide (b1 ≤ 0x9F)
            else isCont b1
          if okB1 && isCont b2 then
            some ((b0 - 0xE0) * 0x1000 + (b1 - 0x80) * 0x40 + (b2 - 0x80), r2)
          else none
      | _ => none
    else if decide (0xF0 ≤ b0) && decide (b0 ≤ 0xF4) then
      match rest with
      | b1 :: b2 :: b3 :: r3 =>
          let okB1 :=
            if b0 = 0xF0 then decide (0x90 ≤ b1) && decide (b1 ≤ 0xBF)
            else if b0 = 0xF4 then decide (0x80 ≤ b1) && decide (b1 ≤ 0x8F)
            else isCont b1
          if okB1 && isCont b2 && isCont b3 then
            some ((b0 - 0xF0) * 0x40000 + (b1 - 0x80) * 0x1000 +
              (b2 - 0x80) * 0x40 + (b3 - 0x80), r3)
          else none
      | _ => none
    else none

/-- Modelled from the spec: fuelled UTF-8 decoding of a whole byte
list. Each list entry is `some codePoint` for a decoded scalar, or
`none` marking an invalid byte (one byte is skipped per error). The
fuel is the byte count, which suffices since every step consumes at
least one byte. -/
def utf8DecodeAux : Nat → List Nat → List (Option Nat)
  | 0, _ => []
  | _, [] => []
  | fuel + 1, b :: rest =>
    match utf8DecodeOne (b :: rest) with
    | some (c, rest1) => some c :: utf8DecodeAux fuel rest1
    | none => none :: utf8DecodeAux fuel rest

/-- Decode a byte list into scalar values and error markers. -/
def utf8Decode (l : List Nat) : List (Option Nat) := utf8DecodeAux l.length l

/-- Modelled from the spec: the crate-level panic message constant
`INVALID_UTF8` (defined in the crate root, outside
`src/args/arg_matches.rs`) used by the strict accessors. -/
def INVALID_UTF8 : String := "unexpected invalid UTF-8 code point"

/-- Modelled from the spec: strict decoding `OsStr::to_str` — succeeds
with the decoded code points exactly when every byte sequence is valid
UTF-8, otherwise returns `none` (on which the accessors panic). -/
def toStr (v : Bytes) : Option Text :=
  let ds := utf8Decode v
  if ds.all Option.isSome then some (ds.filterMap id) else none

/-- Modelled from the spec: lossy decoding `OsStr::to_string_lossy` —
never fails; invalid byte sequences are replaced by the Unicode
replacement character U+FFFD. -/
def toStringLossy (v : Bytes) : Text :=
  (utf8Decode v).map (fun o => o.getD 0xFFFD)

theorem map_getD_eq_filterMap_of_all_isSome (ds : List (Option Nat))
    (h : ds.all Option.isSome) :
    ds.map (fun o => o.getD 0xFFFD) = ds.filterMap id := by
  induction ds with
  | nil => rfl
  | cons o rest ih =>
      simp only [List.all_cons, Bool.and_eq_true] at h
      cases o with
      | none => simp [Option.isSome] at h
      | some c =>
          have hfm : ((some c :: rest).filterMap id : List Nat)
              = c :: rest.filterMap id := rfl
          rw [List.map_cons, hfm, ih h.2]
          rfl

/-- Lossy decoding agrees with strict decoding on valid text. -/
theorem toStringLossy_eq_of_toStr (v : Bytes) (s : Text) (h : toStr v = some s) :
    toStringLossy v = s := by
  unfold toStr at h
  by_cases hall : (utf8Decode v).all Option.isSome
  · rw [if_pos hall] at h
    obtain rfl : (utf8Decode v).filterMap id = s := by
      simpa using h
    exact map_getD_eq_filterMap_of_all_isSome _ hall
  · rw [if_neg hall] at h
    cases h

/-!
The `Values` iterator of `arg_matches.rs`: the slot-map iterator with
the strict decoding function `to_str_slice` mapped over it. The Rust
`Map` adapter applies `to_str_slice` (which panics on invalid UTF-8)
to each value as it is pulled; here the decoding step is fused into
the step functions, with the panic modelled as `Except.error`.
-/

/-- The strict all-values iterator `Values` of `arg_matches.rs`. -/
structure Values where
  iter : Iter Bytes
  deriving Repr, DecidableEq

namespace Values

/-- `Values::next`: pull one slot forward; a yielded raw value is
strictly decoded, panicking (`Except.error INVALID_UTF8`) if it is not
valid UTF-8. -/
def next (v : Values) : Except String (Option Text × Values) :=
  match v.iter.next with
  | (none, it1) => .ok (none, ⟨it1⟩)
  | (some b, it1) =>
    match toStr b with
    | some s => .ok (some s, ⟨it1⟩)
    | none => .error INVALID_UTF8

/-- `Values::next_back`: pull one slot backward, strictly decoding. -/
def nextBack (v : Values) : Except String (Option Text × Values) :=
  match v.iter.nextBack with
  | (none, it1) => .ok (none, ⟨it1⟩)
  | (some b, it1) =>
    match toStr b with
    | some s => .ok (some s, ⟨it1⟩)
    | none => .error INVALID_UTF8

/-- Pull at most `n` items from the front, stopping early when the
iterator is exhausted; the first invalid value reached aborts the
whole computation fatally. -/
def pull : Nat → Values → Except String (List Text × Values)
  | 0, v => .ok ([], v)
  | n + 1, v =>
    match v.next with
    | .error e => .error e
    | .ok (none, v1) => .ok ([], v1)
    | .ok (some s, v1) => (pull n v1).map (fun p => (s :: p.1, p.2))

/-- Fuelled full forward collection (Rust `collect::<Vec<_>>()`). -/
def collectFAux : Nat → Values → Except String (List Text)
  | 0, _ => .ok []
  | fuel + 1, v =>
    match v.next with
    | .error e => .error e
    | .ok (none, _) => .ok []
    | .ok (some s, v1) => (collectFAux fuel v1).map (s :: ·)

/-- Full forward collection of the strict values iterator. -/
def collectForward (v : Values) : Except String (List Text) :=
  collectFAux v.iter.iter.length v

/-- Fuelled full backward collection (Rust `rev().collect()`). -/
def collectBAux : Nat → Values → Except String (List Text)
  | 0, _ => .ok []
  | fuel + 1, v =>
    match v.nextBack with
    | .error e => .error e
    | .ok (none, _) => .ok []
    | .ok (some s, v1) => (collectBAux fuel v1).map (s :: ·)

/-- Full backward collection of the strict values iterator. -/
def collectBackward (v : Values) : Except String (List Text) :=
  collectBAux v.iter.iter.length v

end Values

/-- Reference strict decoding of a list of raw values: the decoded
texts in order, or the fatal error at the first invalid value. -/
def strictDecodeAll : List Bytes → Except String (List Text)
  | [] => .ok []
  | b :: rest =>
    match toStr b with
    | none => .error INVALID_UTF8
    | some s => (strictDecodeAll rest).map (s :: ·)

/-- The raw all-values iterator `OsValues` of `arg_matches.rs`: the
slot-map iterator with the identity-like `to_str_slice` (no decoding,
never fails) mapped over it. -/
structure OsValues where
  iter : Iter Bytes
  deriving Repr, DecidableEq

namespace OsValues

/-- `OsValues::next`. -/
def next (v : OsValues) : Option Bytes × OsValues :=
  match v.iter.next with
  | (r, it1) => (r, ⟨it1⟩)

/-- `OsValues::next_back`. -/
def nextBack (v : OsValues) : Option Bytes × OsValues :=
  match v.iter.nextBack with
  | (r, it1) => (r, ⟨it1⟩)

/-- Full forward collection of the raw values iterator. -/
def collect (v : OsValues) : List Bytes := v.iter.collectForward

/-- Full backward collection of the raw values iterator. -/
def collectBack (v : OsValues) : List Bytes := v.iter.collectBackward

end OsValues

namespace Values

theorem collectFAux_decodes :
    ∀ (fuel : Nat) (it : Iter Bytes), it.WF → it.remaining.length ≤ fuel →
      collectFAux fuel ⟨it⟩ = strictDecodeAll it.remaining := by
  intro fuel
  induction fuel with
  | zero =>
      intro it _ hfuel
      have : it.remaining = [] := List.eq_nil_of_length_eq_zero (by omega)
      simp [collectFAux, this, strictDecodeAll]
  | succ n ih =>
      intro it hwf hfuel
      obtain ⟨it1, hstep, hwf1, _, hrem1⟩ := Iter.next_spec it hwf
      cases hrm : it.remaining with
      | nil =>
          rw [hrm] at hstep
          simp only [List.head?_nil] at hstep
          simp [collectFAux, next, hstep, hrm, strictDecodeAll]
      | cons b rest =>
          rw [hrm] at hstep hrem1
          simp only [List.head?_cons, List.tail_cons] at hstep hrem1
          have hlen : rest.length ≤ n := by
            rw [hrm] at hfuel; simp at hfuel; omega
          have hih := ih it1 hwf1 (by rw [hrem1]; exact hlen)
          rw [hrem1] at hih
          cases hts : toStr b with
          | none => simp [collectFAux, next, hstep, hts, strictDecodeAll]
          | some s => simp [collectFAux, next, hstep, hts, strictDecodeAll, hih]

theorem collectBAux_decodes :
    ∀ (fuel : Nat) (it : Iter Bytes), it.WF → it.remaining.length ≤ fuel →
      collectBAux fuel ⟨it⟩ = strictDecodeAll it.remaining.reverse := by
  intro fuel
  induction fuel with
  | zero =>
      intro it _ hfuel
      have : it.remaining = [] := List.eq_nil_of_length_eq_zero (by omega)
      simp [collectBAux, this, strictDecodeAll]
  | succ n ih =>
      intro it hwf hfuel
      obtain ⟨it1, hstep, hwf1, _, hrem1⟩ := Iter.nextBack_spec it hwf
      cases hrm : it.remaining.getLast? with
      | none =>
          have hnil : it.remaining = [] := List.getLast?_eq_none_iff.mp hrm
          rw [hrm] at hstep
          simp [collectBAux, nextBack, hstep, hnil, strictDecodeAll]
      | some b =>
          obtain ⟨ys, hys⟩ : ∃ ys, it.remaining = ys ++ [b] := by
            rcases List.eq_nil_or_concat it.remaining with hnil | ⟨ys, c, hconc⟩
            · rw [hnil] at hrm; simp at hrm
            · rw [hconc] at hrm
              simp [List.getLast?_append] at hrm
              exact ⟨ys, by rw [hconc, hrm, List.concat_eq_append]⟩
          rw [hrm] at hstep
          rw [hys] at hrem1
          simp only [List.dropLast_concat] at hrem1
          have hlen : ys.length ≤ n := by
            rw [hys] at hfuel; simp at hfuel; omega
          have hih := ih it1 hwf1 (by rw [hrem1]; simpa using hlen)
          rw [hrem1] at hih
          have hrev : (ys ++ [b]).reverse = b :: ys.reverse := by simp
          rw [hys, hrev]
          cases hts : toStr b with
          | none => simp [collectBAux, nextBack, hstep, hts, strictDecodeAll]
          | some s =>
              simp [collectBAux, nextBack, hstep, hts, strictDecodeAll, hih]

end Values

theorem strictDecodeAll_append (a b : List Bytes) :
    strictDecodeAll (a ++ b) =
      match strictDecodeAll a, strictDecodeAll b with
      | .ok xs, .ok ys => .ok (xs ++ ys)
      | .error e, _ => .error e
      | .ok _, .error e => .error e := by
  induction a with
  | nil =>
      cases hb : strictDecodeAll b with
      | ok ys => simp [strictDecodeAll, hb]
      | error e => simp [strictDecodeAll, hb]
  | cons v rest ih =>
      cases hts : toStr v with
      | none => simp [strictDecodeAll, hts]
      | some s =>
          cases hr : strictDecodeAll rest with
          | ok xs =>
              cases hb : strictDecodeAll b with
              | ok ys =>
                  rw [hr, hb] at ih
                  simp [strictDecodeAll, hts, ih, hr, hb, Except.map]
              | error e =>
                  rw [hr, hb] at ih
                  simp [strictDecodeAll, hts, ih, hr, hb, Except.map]
          | error e =>
              rw [hr] at ih
              simp [strictDecodeAll, hts, ih, hr, Except.map]

/-- The reference strict decode fails only with the fatal invalid
UTF-8 panic message. -/
theorem strictDecodeAll_error (l : List Bytes) (e : String)
    (h : strictDecodeAll l = .error e) : e = INVALID_UTF8 := by
  induction l with
  | nil => simp [strictDecodeAll] at h
  | cons v rest ih =>
      cases hts : toStr v with
      | none =>
          rw [strictDecodeAll, hts] at h
          exact (Except.error.injEq _ _ |>.mp h.symm)
      | some s =>
          rw [strictDecodeAll, hts] at h
          cases hr : strictDecodeAll rest with
          | ok xs => rw [hr] at h; simp [Except.map] at h
          | error e1 =>
              rw [hr] at h
              simp only [Except.map] at h
              cases h
              exact ih hr

/-- Decoding a reversed value list errs exactly when decoding the list
errs (with the same fatal message) and otherwise yields the reversed
texts. -/
theorem strictDecodeAll_reverse (l : List Bytes) :
    strictDecodeAll l.reverse = (strictDecodeAll l).map List.reverse := by
  induction l with
  | nil => simp [strictDecodeAll, Except.map]
  | cons v rest ih =>
      have hrev : (v :: rest).reverse = rest.reverse ++ [v] := by simp
      rw [hrev, strictDecodeAll_append, ih]
      cases hts : toStr v with
      | none =>
          cases hr : strictDecodeAll rest with
          | ok xs => simp [strictDecodeAll, hts, hr, Except.map]
          | error e =>
              have he : e = INVALID_UTF8 := strictDecodeAll_error rest e hr
              simp [strictDecodeAll, hts, hr, Except.map, he]
      | some s =>
          cases hr : strictDecodeAll rest with
          | ok xs => simp [strictDecodeAll, hts, hr, Except.map]
          | error e => simp [strictDecodeAll, hts, hr, Except.map]

theorem pull_spec_ok :
    ∀ (good : List Bytes) (it : Iter Bytes) (rest : List Bytes),
      it.WF → it.remaining = good ++ rest → (∀ v ∈ good, (toStr v).isSome) →
      ∃ v1 : Values,
        Values.pull good.length ⟨it⟩
          = .ok (good.map (fun v => (toStr v).getD []), v1) ∧
        v1.iter.WF ∧ v1.iter.remaining = rest := by
  intro good
  induction good with
  | nil =>
      intro it rest hwf hrem _
      exact ⟨⟨it⟩, by simp [Values.pull], hwf, by simpa using hrem⟩
  | cons g gs ih =>
      intro it rest hwf hrem hvalid
      obtain ⟨it1, hstep, hwf1, _, hrem1⟩ := Iter.next_spec it hwf
      rw [hrem] at hstep hrem1
      simp only [List.cons_append, List.head?_cons, List.tail_cons] at hstep hrem1
      obtain ⟨s, hs⟩ := Option.isSome_iff_exists.mp (hvalid g (by simp))
      obtain ⟨v1, hpull, hwf2, hrem2⟩ :=
        ih it1 rest hwf1 hrem1 (fun v hv => hvalid v (by simp [hv]))
      refine ⟨v1, ?_, hwf2, hrem2⟩
      simp [Values.pull, Values.next, hstep, hs, hpull, Except.map]

theorem pull_spec_error :
    ∀ (good : List Bytes) (it : Iter Bytes) (bad : Bytes) (rest : List Bytes),
      it.WF → it.remaining = good ++ bad :: rest →
      (∀ v ∈ good, (toStr v).isSome) → toStr bad = none →
      Values.pull (good.length + 1) ⟨it⟩ = .error INVALID_UTF8 := by
  intro good
  induction good with
  | nil =>
      intro it bad rest hwf hrem _ hbad
      obtain ⟨it1, hstep, _, _, _⟩ := Iter.next_spec it hwf
      rw [hrem] at hstep
      simp only [List.nil_append, List.head?_cons] at hstep
      simp [Values.pull, Values.next, hstep, hbad]
  | cons g gs ih =>
      intro it bad rest hwf hrem hvalid hbad
      obtain ⟨it1, hstep, hwf1, _, hrem1⟩ := Iter.next_spec it hwf
      rw [hrem] at hstep hrem1
      simp only [List.cons_append, List.head?_cons, List.tail_cons] at hstep hrem1
      obtain ⟨s, hs⟩ := Option.isSome_iff_exists.mp (hvalid g (by simp))
      have hpull := ih it1 bad rest hwf1 hrem1 (fun v hv => hvalid v (by simp [hv])) hbad
      have hnext : Values.next ⟨it⟩ = .ok (some s, ⟨it1⟩) := by
        simp [Values.next, hstep, hs]
      have h1 : Values.pull (gs.length + 1 + 1) ⟨it⟩
          = (Values.pull (gs.length + 1) ⟨it1⟩).map (fun p => (s :: p.1, p.2)) := by
        conv_lhs => rw [Values.pull, hnext]
      simp only [List.length_cons]
      rw [h1, hpull]
      rfl

/-!
The match-result store itself: struct `ArgMatches` of `arg_matches.rs`
with its `args` map, optional `subcommand` and optional `usage`
string. The `HashMap` is modelled as an association list with unique
keys (lookup by name); argument and subcommand names are Lean
`String`s since they are always valid text in the source. The
`SubCommand` struct (declared in another file of the crate, holding a
`name` and a nested `matches`) is modelled as a name / store pair.
-/

/-- The `MatchedArg` record of one matched argument (declared in
another file of the crate; modelled from the spec: an occurrence
counter paired with the sparse slot map of raw values). -/
structure MatchedArg where
  occurs : Nat
  vals : List (Option Bytes)
  deriving Repr, DecidableEq

/-- The match-result store `ArgMatches`: argument map, optional active
subcommand (name and nested store), optional usage text. -/
inductive ArgMatches : Type where
  | mk (args : List (String × MatchedArg)) (subcommand : Option (String × ArgMatches))
      (usage : Option String)

/-- The `args` field of the store. -/
def ArgMatches.args : ArgMatches → List (String × MatchedArg)
  | .mk a _ _ => a

/-- The `subcommand` field of the store. -/
def ArgMatches.subcommand : ArgMatches → Option (String × ArgMatches)
  | .mk _ s _ => s

/-- The `usage` field of the store. -/
def ArgMatches.usageField : ArgMatches → Option String
  | .mk _ _ u => u

/-- The lazy value sequence of a slot map (`vec_map`'s `values()`),
fully materialized by forward iteration. -/
def valuesList {V : Type} (l : List (Option V)) : List V :=
  Iter.collectForward (Iter.init l)

theorem valuesList_eq {V : Type} (l : List (Option V)) :
    valuesList l = l.filterMap id :=
  Iter.collectForward_init l

namespace ArgMatches

/-- `ArgMatches::value_of`: first bound value of the named argument,
strictly decoded; panics (`Except.error INVALID_UTF8`) when that value
is not valid UTF-8; absent when the name is unbound or has no value. -/
def value_of (m : ArgMatches) (name : String) : Except String (Option Text) :=
  match m.args.lookup name with
  | some arg =>
    match (valuesList arg.vals).head? with
    | some v =>
      match toStr v with
      | some s => .ok (some s)
      | none => .error INVALID_UTF8
    | none => .ok none
  | none => .ok none

/-- `ArgMatches::value_of_lossy`: first bound value of the named
argument, lossily decoded; never fails. -/
def value_of_lossy (m : ArgMatches) (name : String) : Option Text :=
  match m.args.lookup name with
  | some arg => (valuesList arg.vals).head?.map toStringLossy
  | none => none

/-- `ArgMatches::value_of_os`: first bound value of the named
argument, raw; never fails. -/
def value_of_os (m : ArgMatches) (name : String) : Option Bytes :=
  match m.args.lookup name with
  | some arg => (valuesList arg.vals).head?
  | none => none

/-- `ArgMatches::values_of`: the lazy strict all-values iterator over
the named argument's slot map, or absent when the name is unbound. -/
def values_of (m : ArgMatches) (name : String) : Option Values :=
  match m.args.lookup name with
  | some arg => some ⟨Iter.init arg.vals⟩
  | none => none

/-- `ArgMatches::values_of_lossy`: eagerly materialized list of the
lossily decoded values in binding order, or absent when the name is
unbound; never fails. -/
def values_of_lossy (m : ArgMatches) (name : String) : Option (List Text) :=
  match m.args.lookup name with
  | some arg => some ((valuesList arg.vals).map toStringLossy)
  | none => none

/-- `ArgMatches::values_of_os`: the lazy raw all-values iterator over
the named argument's slot map, or absent when the name is unbound. -/
def values_of_os (m : ArgMatches) (name : String) : Option OsValues :=
  match m.args.lookup name with
  | some arg => some ⟨Iter.init arg.vals⟩
  | none => none

/-- `ArgMatches::is_present`: true when the name is the active
subcommand's name, else whether the args map contains the name. -/
def is_present (m : ArgMatches) (name : String) : Bool :=
  match m.subcommand with
  | some sc => if sc.1 == name then true else (m.args.lookup name).isSome
  | none => (m.args.lookup name).isSome

/-- `ArgMatches::occurrences_of`: the occurrence counter of the named
argument, or 0 when the name is unbound. -/
def occurrences_of (m : ArgMatches) (name : String) : Nat :=
  match m.args.lookup name with
  | some a => a.occurs
  | none => 0

/-- `ArgMatches::subcommand_matches`: the nested store when the
queried name equals the active subcommand's name, else absent. -/
def subcommand_matches (m : ArgMatches) (name : String) : Option ArgMatches :=
  match m.subcommand with
  | some sc => if sc.1 == name then some sc.2 else none
  | none => none

/-- `ArgMatches::subcommand_name`: the active subcommand's name, or
absent when none. -/
def subcommand_name (m : ArgMatches) : Option String :=
  m.subcommand.map Prod.fst

/-- `ArgMatches::subcommand`: name and nested store of the active
subcommand, or the empty name with an absent store when none. -/
def subcommand_tuple (m : ArgMatches) : String × Option ArgMatches :=
  match m.subcommand with
  | some sc => (sc.1, some sc.2)
  | none => ("", none)

/-- `ArgMatches::usage`: the stored usage string, or empty text. -/
def usage (m : ArgMatches) : String :=
  match m.usageField with
  | some u => u
  | none => ""

end ArgMatches

theorem length_filterMap_id_eq_countP {V : Type} (l : List (Option V)) :
    (l.filterMap id).length = l.countP Option.isSome := by
  induction l with
  | nil => rfl
  | cons o rest ih =>
      cases o with
      | none =>
          have hfm : ((none : Option V) :: rest).filterMap id = rest.filterMap id := rfl
          rw [hfm, List.countP_cons]
          simp [ih]
      | some v =>
          have hfm : (some v :: rest).filterMap id = v :: rest.filterMap id := rfl
          rw [hfm, List.countP_cons]
          simp [ih]

/-!
Example stores used as concrete instances for the claim witnesses.
`exVals` holds the bytes of `"val1"` and `"val2"` with a gap in the
slot map; `exBadVals` holds valid `"val1"` followed by the invalid
byte sequence `[0xE9, 0x21]`.
-/

/-- Sparse slot vector with two valid text values and a gap. -/
def exVals : List (Option Bytes) := [some [118, 97, 108, 49], none, some [118, 97, 108, 50]]

/-- A matched argument with 2 occurrences and the two values above. -/
def exArg : MatchedArg := ⟨2, exVals⟩

/-- A store binding `output` and activating subcommand `test`. -/
def exM : ArgMatches := .mk [("output", exArg)] (some ("test", .mk [] none none)) none

/-- Slot vector with one valid text value then an invalid sequence. -/
def exBadVals : List (Option Bytes) := [some [118, 97, 108, 49], some [233, 33]]

/-- A matched argument holding `exBadVals`. -/
def exBadArg : MatchedArg := ⟨1, exBadVals⟩

/-- A store binding `output` to `exBadArg`. -/
def exBadM : ArgMatches := .mk [("output", exBadArg)] none none

/-- A store with `debug` bound 3 times with no values. -/
def exFlagM : ArgMatches := .mk [("debug", ⟨3, []⟩)] none none

/-- A store with an active subcommand `sub` and no bound arguments. -/
def exScM : ArgMatches := .mk [] (some ("sub", .mk [] none none)) none

/-- C1: for an argument whose bound values are valid-text values
followed by an invalid-text byte sequence, the strict all-values
accessor hands out the valid items and fails fatally exactly when the
invalid item is reached, while the lossy all-values accessor returns
the complete eagerly-materialized list in binding order with invalid
sequences replaced by the replacement character, never failing. -/
theorem claim_strict_fails_lossy_complete (m : ArgMatches) (name : String)
    (arg : MatchedArg) (good : List Bytes) (bad : Bytes) (rest : List Bytes)
    (hlook : m.args.lookup name = some arg)
    (hvals : valuesList arg.vals = good ++ bad :: rest)
    (hgood : ∀ v ∈ good, (toStr v).isSome)
    (hbad : toStr bad = none) :
    m.values_of name = some ⟨Iter.init arg.vals⟩ ∧
    (Values.pull good.length ⟨Iter.init arg.vals⟩).map Prod.fst
        = .ok (good.map (fun v => (toStr v).getD [])) ∧
    Values.pull (good.length + 1) ⟨Iter.init arg.vals⟩ = .error INVALID_UTF8 ∧
    m.values_of_lossy name = some ((good ++ bad :: rest).map toStringLossy) := by
  have hrem : (Iter.init arg.vals).remaining = good ++ bad :: rest := by
    rw [Iter.remaining_init, ← valuesList_eq, hvals]
  refine ⟨?_, ?_, ?_, ?_⟩
  · simp [ArgMatches.values_of, hlook]
  · obtain ⟨v1, hpull, _, _⟩ :=
      pull_spec_ok good (Iter.init arg.vals) (bad :: rest) (Iter.init_wf arg.vals) hrem hgood
    rw [hpull]
    rfl
  · exact pull_spec_error good (Iter.init arg.vals) bad rest (Iter.init_wf arg.vals)
      hrem hgood hbad
  · simp [ArgMatches.values_of_lossy, hlook, hvals]

/-- C2: under every interleaving of forward and backward calls on the
double-ended slot-map iterator, the forward yields, the remaining
values and the reversed backward yields reassemble exactly the
occupied values in index order (each yielded once, forward ascending,
backward descending), and once the front cursor meets the back cursor
the remaining values are gone and both directions return absent. -/
theorem claim_interleaved_iteration_exact (V : Type) (l : List (Option V)) (ds : List Bool) :
    match Iter.run (Iter.init l) ds with
    | (fs, bs, s2) =>
        fs ++ s2.remaining ++ bs.reverse = l.filterMap id ∧
        (s2.front = s2.back →
          s2.remaining = [] ∧ s2.next = (none, s2) ∧ s2.nextBack = (none, s2)) := by
  have h := Iter.run_spec ds (Iter.init l) (Iter.init_wf l)
  cases hrun : Iter.run (Iter.init l) ds with
  | mk fs rest =>
    cases rest with
    | mk bs s2 =>
      rw [hrun] at h
      obtain ⟨hwf, hacc⟩ := h
      refine ⟨hacc.trans (Iter.remaining_init l), fun hfb => ?_⟩
      exact ⟨Iter.remaining_nil_of_cursors_met s2 hwf hfb,
        (Iter.exhausted_of_cursors_met s2 hfb).1,
        (Iter.exhausted_of_cursors_met s2 hfb).2⟩

/-- C3: for every matched argument, collecting the strict all-values
sequence entirely forward and collecting a fresh instance of the same
sequence entirely backward yield exact reverses of each other (and the
same fatal error when some value is invalid). -/
theorem claim_forward_reverse_roundtrip (m : ArgMatches) (name : String) (vs : Values)
    (h : m.values_of name = some vs) :
    vs.collectForward = vs.collectBackward.map List.reverse := by
  unfold ArgMatches.values_of at h
  cases hlook : m.args.lookup name with
  | none => rw [hlook] at h; cases h
  | some arg =>
      rw [hlook] at h
      obtain rfl : (⟨Iter.init arg.vals⟩ : Values) = vs := by simpa using h
      have hwf := Iter.init_wf arg.vals
      have hlen := Iter.length_remaining_le (Iter.init arg.vals)
      have hF := Values.collectFAux_decodes (Iter.init arg.vals).iter.length
        (Iter.init arg.vals) hwf hlen
      have hB := Values.collectBAux_decodes (Iter.init arg.vals).iter.length
        (Iter.init arg.vals) hwf hlen
      rw [Values.collectForward, Values.collectBackward]
      rw [hF, hB, strictDecodeAll_reverse]
      cases strictDecodeAll (Iter.init arg.vals).remaining with
      | ok xs => simp [Except.map]
      | error e => simp [Except.map]

/-- C4: the presence check returns true exactly for bound argument
names and the currently active subcommand's name. -/
theorem claim_presence_check (m : ArgMatches) (name : String) :
    m.is_present name = true ↔
      ((m.args.lookup name).isSome = true ∨ m.subcommand_name = some name) := by
  cases hsc : m.subcommand with
  | none => simp [ArgMatches.is_present, ArgMatches.subcommand_name, hsc]
  | some sc =>
      by_cases heq : sc.1 = name
      · simp [ArgMatches.is_present, ArgMatches.subcommand_name, hsc, heq]
      · have hbeq : (sc.1 == name) = false := by
          simpa using heq
        simp [ArgMatches.is_present, ArgMatches.subcommand_name, hsc, hbeq, heq]

/-- C5: a bound argument reports its occurrence counter through
`occurrences_of` (0 for unbound names) and its raw all-values
accessor yields exactly the bound values, one item per occupied slot,
in binding order. -/
theorem claim_occurrence_value_counts (m : ArgMatches) (name other : String)
    (arg : MatchedArg)
    (hlook : m.args.lookup name = some arg)
    (hother : m.args.lookup other = none) :
    m.occurrences_of name = arg.occurs ∧
    m.occurrences_of other = 0 ∧
    m.values_of_os name = some ⟨Iter.init arg.vals⟩ ∧
    OsValues.collect ⟨Iter.init arg.vals⟩ = arg.vals.filterMap id ∧
    (arg.vals.filterMap id).length = arg.vals.countP Option.isSome := by
  refine ⟨?_, ?_, ?_, ?_, ?_⟩
  · simp [ArgMatches.occurrences_of, hlook]
  · simp [ArgMatches.occurrences_of, hother]
  · simp [ArgMatches.values_of_os, hlook]
  · exact Iter.collectForward_init arg.vals
  · exact length_filterMap_id_eq_countP arg.vals

/-- C6: on an argument bound with two or more values, each
single-value accessor returns exactly the earliest-bound value — the
raw and lossy ones never failing, the strict one failing only on that
first value's own invalidity, never on account of the repetition. -/
theorem claim_first_value_accessors (m : ArgMatches) (name : String) (arg : MatchedArg)
    (v1 v2 : Bytes) (vs : List Bytes)
    (hlook : m.args.lookup name = some arg)
    (hvals : valuesList arg.vals = v1 :: v2 :: vs) :
    m.value_of_os name = some v1 ∧
    m.value_of_lossy name = some (toStringLossy v1) ∧
    m.value_of name = (match toStr v1 with
      | some s => Except.ok (some s)
      | none => Except.error INVALID_UTF8) := by
  refine ⟨?_, ?_, ?_⟩
  · simp [ArgMatches.value_of_os, hlook, hvals]
  · simp [ArgMatches.value_of_lossy, hlook, hvals]
  · simp only [ArgMatches.value_of, hlook, hvals, List.head?_cons]

/-- C7: on a bound value whose raw bytes are already valid text, the
lossy single-value accessor returns a result identical to the strict
single-value accessor's result. -/
theorem claim_lossy_identity_on_valid (m : ArgMatches) (name : String) (arg : MatchedArg)
    (v : Bytes) (s : Text)
    (hlook : m.args.lookup name = some arg)
    (hv : (valuesList arg.vals).head? = some v)
    (hs : toStr v = some s) :
    m.value_of name = .ok (some s) ∧ m.value_of_lossy name = some s := by
  constructor
  · simp only [ArgMatches.value_of, hlook, hv, hs]
  · simp [ArgMatches.value_of_lossy, hlook, hv, toStringLossy_eq_of_toStr v s hs]

/-- C8: an argument bound with 3 occurrences and zero values reports
count 3 and a present-but-empty strict all-values sequence; absence is
reported only for never-bound names. -/
theorem claim_empty_but_present (m : ArgMatches) (name other : String) (arg : MatchedArg)
    (hlook : m.args.lookup name = some arg)
    (hocc : arg.occurs = 3)
    (hvals : valuesList arg.vals = [])
    (hother : m.args.lookup other = none) :
    m.occurrences_of name = 3 ∧
    m.values_of name = some ⟨Iter.init arg.vals⟩ ∧
    Values.collectForward ⟨Iter.init arg.vals⟩ = .ok [] ∧
    m.values_of other = none := by
  have hrem : (Iter.init arg.vals).remaining = [] := by
    rw [Iter.remaining_init, ← valuesList_eq, hvals]
  refine ⟨?_, ?_, ?_, ?_⟩
  · simp [ArgMatches.occurrences_of, hlook, hocc]
  · simp [ArgMatches.values_of, hlook]
  · have hF := Values.collectFAux_decodes (Iter.init arg.vals).iter.length
      (Iter.init arg.vals) (Iter.init_wf arg.vals) (Iter.length_remaining_le _)
    rw [Values.collectForward, hF, hrem]
    rfl
  · simp [ArgMatches.values_of, hother]

/-- C9: subcommand lookup returns the nested store exactly when an
active subcommand exists and its name equals the queried name; every
other name returns absent. -/
theorem claim_subcommand_lookup (m : ArgMatches) (name : String) (st : ArgMatches) :
    m.subcommand_matches name = some st ↔ m.subcommand = some (name, st) := by
  cases hsc : m.subcommand with
  | none => simp [ArgMatches.subcommand_matches, hsc]
  | some sc =>
      cases sc with
      | mk n sub =>
          by_cases heq : n = name
          · subst heq
            simp [ArgMatches.subcommand_matches, hsc]
          · have hbeq : (n == name) = false := by simpa using heq
            simp [ArgMatches.subcommand_matches, hsc, hbeq, heq]

/-- C10: when the active subcommand's name is not also a bound
argument name, the presence check accepts it while the occurrence
count is 0 and every value accessor returns absent, because the
subcommand is not recorded in the argument map. -/
theorem claim_subcommand_not_in_args (m : ArgMatches) (scName : String) (sub : ArgMatches)
    (hsc : m.subcommand = some (scName, sub))
    (hnotarg : m.args.lookup scName = none) :
    m.is_present scName = true ∧
    m.occurrences_of scName = 0 ∧
    m.value_of scName = .ok none ∧
    m.value_of_lossy scName = none ∧
    m.value_of_os scName = none ∧
    m.values_of scName = none ∧
    m.values_of_lossy scName = none ∧
    m.values_of_os scName = none := by
  refine ⟨?_, ?_, ?_, ?_, ?_, ?_, ?_, ?_⟩
  · simp [ArgMatches.is_present, hsc]
  · simp [ArgMatches.occurrences_of, hnotarg]
  · simp [ArgMatches.value_of, hnotarg]
  · simp [ArgMatches.value_of_lossy, hnotarg]
  · simp [ArgMatches.value_of_os, hnotarg]
  · simp [ArgMatches.values_of, hnotarg]
  · simp [ArgMatches.values_of_lossy, hnotarg]
  · simp [ArgMatches.values_of_os, hnotarg]

/-- Witness for C1 at the store binding `output` to `"val1"` followed
by the invalid bytes `[0xE9, 0x21]`. -/
theorem claim_strict_fails_lossy_complete_witness :
    exBadM.values_of "output" = some ⟨Iter.init exBadArg.vals⟩ ∧
    (Values.pull 1 ⟨Iter.init exBadArg.vals⟩).map Prod.fst
        = .ok (([[118, 97, 108, 49]] : List Bytes).map (fun v => (toStr v).getD [])) ∧
    Values.pull 2 ⟨Iter.init exBadArg.vals⟩ = .error INVALID_UTF8 ∧
    exBadM.values_of_lossy "output"
        = some ((([[118, 97, 108, 49]] : List Bytes) ++ [233, 33] :: []).map toStringLossy) :=
  claim_strict_fails_lossy_complete exBadM "output" exBadArg
    [[118, 97, 108, 49]] [233, 33] [] (by decide) (by decide) (by decide) (by decide)

/-- Witness for C3 at the store binding `output` to two values. -/
theorem claim_forward_reverse_roundtrip_witness :
    Values.collectForward ⟨Iter.init exArg.vals⟩
      = (Values.collectBackward ⟨Iter.init exArg.vals⟩).map List.reverse :=
  claim_forward_reverse_roundtrip exM "output" ⟨Iter.init exArg.vals⟩ (by decide)

/-- Witness for C5 at the store binding `output` twice, querying the
unbound name `missing` alongside. -/
theorem claim_occurrence_value_counts_witness :
    exM.occurrences_of "output" = exArg.occurs ∧
    exM.occurrences_of "missing" = 0 ∧
    exM.values_of_os "output" = some ⟨Iter.init exArg.vals⟩ ∧
    OsValues.collect ⟨Iter.init exArg.vals⟩ = exArg.vals.filterMap id ∧
    (exArg.vals.filterMap id).length = exArg.vals.countP Option.isSome :=
  claim_occurrence_value_counts exM "output" "missing" exArg (by decide) (by decide)

/-- Witness for C6 at the store whose `output` argument repeats. -/
theorem claim_first_value_accessors_witness :
    exM.value_of_os "output" = some [118, 97, 108, 49] ∧
    exM.value_of_lossy "output" = some (toStringLossy [118, 97, 108, 49]) ∧
    exM.value_of "output" = (match toStr [118, 97, 108, 49] with
      | some s => Except.ok (some s)
      | none => Except.error INVALID_UTF8) :=
  claim_first_value_accessors exM "output" exArg
    [118, 97, 108, 49] [118, 97, 108, 50] [] (by decide) (by decide)

/-- Witness for C7 at the valid first value of `output`. -/
theorem claim_lossy_identity_on_valid_witness :
    exM.value_of "output" = .ok (some [118, 97, 108, 49]) ∧
    exM.value_of_lossy "output" = some [118, 97, 108, 49] :=
  claim_lossy_identity_on_valid exM "output" exArg
    [118, 97, 108, 49] [118, 97, 108, 49] (by decide) (by decide) (by decide)

/-- Witness for C8 at the store with `debug` bound 3 times with no
values, querying the unbound name `missing` alongside. -/
theorem claim_empty_but_present_witness :
    exFlagM.occurrences_of "debug" = 3 ∧
    exFlagM.values_of "debug" = some ⟨Iter.init (⟨3, []⟩ : MatchedArg).vals⟩ ∧
    Values.collectForward ⟨Iter.init (⟨3, []⟩ : MatchedArg).vals⟩ = .ok [] ∧
    exFlagM.values_of "missing" = none :=
  claim_empty_but_present exFlagM "debug" "missing" ⟨3, []⟩
    (by decide) (by decide) (by rfl) (by decide)

/-- Witness for C10 at the store whose active subcommand `sub` is not
a bound argument name. -/
theorem claim_subcommand_not_in_args_witness :
    exScM.is_present "sub" = true ∧
    exScM.occurrences_of "sub" = 0 ∧
    exScM.value_of "sub" = .ok none ∧
    exScM.value_of_lossy "sub" = none ∧
    exScM.value_of_os "sub" = none ∧
    exScM.values_of "sub" = none ∧
    exScM.values_of_lossy "sub" = none ∧
    exScM.values_of_os "sub" = none :=
  claim_subcommand_not_in_args exScM "sub" (.mk [] none none) (by rfl) (by decide)

end ArgMatchesModel
